import Mathlib

/-!
Verification of the font catalog loader and font cache of the `squish`
repository (`src-tauri/src/fonts.rs`, `src-tauri/src/lib.rs`).

The host font source (`font_kit::source::SystemSource`) and the Unicode
classification `char::is_alphabetic` are external collaborators: they are
modelled as parameters of the embedding (`HostOutcome`, `isAlpha`).  Every
other definition is a direct translation of the Rust source.
-/

namespace Squish

/-! ### String ordering

Rust sorts `Vec<String>` with `Ord for String`, which is lexicographic on
UTF-8 bytes; on code points this coincides with lexicographic order on the
character list, i.e. with Mathlib's linear order on `String`.  The boolean
comparison below is a kernel-computable equivalent, proved to agree with
`· ≤ ·` so that order-theoretic lemmas apply while concrete runs still
evaluate by `decide`. -/

/-- Boolean strict lexicographic comparison of character lists by code point. -/
def charListLt : List Char → List Char → Bool
  | [], [] => false
  | [], _ :: _ => true
  | _ :: _, [] => false
  | a :: as, b :: bs => if a < b then true else if b < a then false else charListLt as bs

def strLt (a b : String) : Bool := charListLt a.data b.data

def strLe (a b : String) : Bool := !(strLt b a)

theorem charListLt_iff : ∀ (as bs : List Char),
    charListLt as bs = true ↔ List.Lex (· < ·) as bs := by
  intro as
  induction as with
  | nil =>
      intro bs
      cases bs with
      | nil => simp [charListLt]
      | cons b bs => simp [charListLt]; exact List.Lex.nil
  | cons a as ih =>
      intro bs
      cases bs with
      | nil => simp [charListLt]
      | cons b bs =>
          simp only [charListLt]
          rcases lt_trichotomy a b with hab | heq | hba
          · simp [hab]
            exact List.Lex.rel hab
          · subst heq
            simp [lt_irrefl]
            rw [ih bs]
            exact List.Lex.cons_iff.symm
          · rw [if_neg (asymm hba), if_pos hba]
            constructor
            · intro h
              exact Bool.noConfusion h
            · intro h
              cases h with
              | cons h => exact (lt_irrefl a hba).elim
              | rel h => exact (asymm hba h).elim

theorem strLt_iff (a b : String) : strLt a b = true ↔ a < b := by
  rw [String.lt_iff_toList_lt]
  show charListLt a.data b.data = true ↔ a.toList < b.toList
  rw [charListLt_iff]
  rfl

theorem strLe_iff (a b : String) : strLe a b = true ↔ a ≤ b := by
  unfold strLe
  rw [Bool.not_eq_true']
  rw [← not_lt (α := String)]
  constructor
  · intro h hlt
    exact absurd ((strLt_iff b a).mpr hlt) (by simp [h])
  · intro h
    by_contra hne
    exact h ((strLt_iff b a).mp (by revert hne; cases strLt b a <;> simp))

/-- Kernel-computable decidability of `· ≤ ·` on strings. -/
def decStrLE : DecidableRel (α := String) (· ≤ ·) :=
  fun a b => decidable_of_iff (strLe a b = true) (strLe_iff a b)

/-- Model of Rust `Vec::sort` on strings.  Rust uses a stable sort; on a
linear order the sorted permutation is unique, so insertion sort is
observationally identical. -/
def sortStr (l : List String) : List String :=
  @List.insertionSort String (· ≤ ·) decStrLE l

/-! ### The host font source model -/

/-- Outcome of `SystemSource::all_fonts()` followed by per-handle
`Handle::load()` / `Font::family_name()`: either the enumeration itself
fails (with some error, `enumErr`), or it yields a list of handles each of
which either resolves to a family name (`some name`) or fails to load
(`none`). -/
inductive HostOutcome where
  | enumErr (e : String)
  | enumOk (handles : List (Option String))

/-- Model of Rust `char::is_ascii`: the code point is at most `0x7F`. -/
def isAsciiChar (c : Char) : Bool := c.toNat ≤ 127

/-! ### fonts.rs -/

/-- The `fallback_fonts` vector of `initialize_fonts`, in declaration
order. -/
def fallback_fonts : List String :=
  ["Arial", "Times New Roman", "Helvetica", "Courier New", "Georgia", "Verdana", "Inter"]

/-- The name filter of `initialize_fonts`:
`!name.is_empty() && name.chars().all(|c| c.is_ascii() || c.is_alphabetic())`.
`isAlpha` is the host's Unicode `char::is_alphabetic` classification. -/
def isValidName (isAlpha : Char → Bool) (name : String) : Bool :=
  !name.isEmpty && name.data.all (fun c => isAsciiChar c || isAlpha c)

/-- The handle-processing loop of `initialize_fonts`: handles that fail to
load are skipped, resolved names are kept when `isValidName` accepts
them. -/
def candidateNames (isAlpha : Char → Bool) (handles : List (Option String)) : List String :=
  handles.filterMap (fun h =>
    match h with
    | some name => if isValidName isAlpha name then some name else none
    | none => none)

/-- Model of Rust `Vec::dedup`: remove consecutive duplicate entries. -/
def dedupAdj : List String → List String
  | [] => []
  | [a] => [a]
  | a :: b :: rest => if a = b then dedupAdj (b :: rest) else a :: dedupAdj (b :: rest)

/-- One step of the fallback-union loop of `initialize_fonts`:
`if !font_names.contains(&fallback) \x7b font_names.push(fallback); \x7d`. -/
def addMissing (acc : List String) (fallback : String) : List String :=
  if acc.contains fallback then acc else acc ++ [fallback]

/-- Model of `initialize_fonts` from fonts.rs, as a function of the host
outcome. -/
def initialize_fonts (isAlpha : Char → Bool) (outcome : HostOutcome) : List String :=
  match outcome with
  | .enumOk handles =>
      let font_names := candidateNames isAlpha handles
      if font_names.isEmpty then
        fallback_fonts
      else
        let deduped := dedupAdj (sortStr font_names)
        let combined := fallback_fonts.foldl addMissing deduped
        sortStr combined
  | .enumErr _ => fallback_fonts

/-- Observable result of one `get_system_fonts` call: the returned value,
the cache contents after the call, and how many times `initialize_fonts`
ran during the call. -/
structure QueryResult where
  result : Except String (List String)
  state : List String
  loaderCalls : Nat

/-- Model of `get_system_fonts` from fonts.rs.  `lockResult` is the outcome of
`state.0.lock()`: `none` when the mutex is acquired, `some e` when locking
fails with an error displaying as `e`.  The Rust function clones the cached
list, re-runs `initialize_fonts` when the clone is empty (without storing
the result), and never writes to the cache. -/
def get_system_fonts (lockResult : Option String) (isAlpha : Char → Bool)
    (outcome : HostOutcome) (state : List String) : QueryResult :=
  match lockResult with
  | none =>
      let fonts := state
      if fonts.isEmpty then
        { result := Except.ok (initialize_fonts isAlpha outcome)
          state := state
          loaderCalls := 1 }
      else
        { result := Except.ok fonts
          state := state
          loaderCalls := 0 }
  | some e =>
      { result := Except.error ("Failed to access font cache: " ++ e)
        state := state
        loaderCalls := 0 }

/-- Modelled from the spec: `initialize_empty_state` is called by
`create_window` in lib.rs (`use fonts::\x7bget_system_fonts, initialize_empty_state, FontState\x7d`)
but its definition is absent from the sources; per the spec the cache state
is "created empty at process start". -/
def initialize_empty_state : List String := []

/-! ### Helper lemmas about the sort -/

theorem sortStr_sorted (l : List String) : (sortStr l).Sorted (· ≤ ·) :=
  @List.sorted_insertionSort String (· ≤ ·) decStrLE _ _ l

theorem sortStr_perm (l : List String) : List.Perm (sortStr l) l :=
  @List.perm_insertionSort String (· ≤ ·) decStrLE l

theorem mem_sortStr {a : String} {l : List String} : a ∈ sortStr l ↔ a ∈ l :=
  (sortStr_perm l).mem_iff

/-! ### Helper lemmas about adjacent deduplication -/

theorem mem_dedupAdj : ∀ (l : List String) (a : String), a ∈ dedupAdj l ↔ a ∈ l := by
  intro l
  induction l with
  | nil => intro a; simp [dedupAdj]
  | cons a tail ih =>
      cases tail with
      | nil => intro x; simp [dedupAdj]
      | cons b rest =>
          intro x
          by_cases hab : a = b
          · rw [dedupAdj, if_pos hab, ih x]
            subst hab
            simp
          · rw [dedupAdj, if_neg hab]
            simp only [List.mem_cons]
            rw [show (x ∈ dedupAdj (b :: rest)) ↔ (x ∈ b :: rest) from ih x]
            simp

theorem dedupAdj_sublist : ∀ (l : List String), List.Sublist (dedupAdj l) l := by
  intro l
  induction l with
  | nil => simp [dedupAdj]
  | cons a tail ih =>
      cases tail with
      | nil => simp [dedupAdj]
      | cons b rest =>
          by_cases hab : a = b
          · rw [dedupAdj, if_pos hab]
            exact ih.cons a
          · rw [dedupAdj, if_neg hab]
            exact ih.cons₂ a

theorem sorted_lt_dedupAdj : ∀ (l : List String),
    l.Sorted (· ≤ ·) → (dedupAdj l).Sorted (· < ·) := by
  intro l
  induction l with
  | nil => intro _; simp [dedupAdj]
  | cons a tail ih =>
      cases tail with
      | nil => intro _; simp [dedupAdj]
      | cons b rest =>
          intro h
          by_cases hab : a = b
          · rw [dedupAdj, if_pos hab]
            exact ih (List.sorted_cons.mp h).2
          · rw [dedupAdj, if_neg hab]
            have h1 := (List.sorted_cons.mp h).1
            have h2 := (List.sorted_cons.mp h).2
            rw [List.sorted_cons]
            refine ⟨?_, ih h2⟩
            intro x hx
            have hxmem : x ∈ b :: rest := (mem_dedupAdj (b :: rest) x).mp hx
            have haltb : a < b := lt_of_le_of_ne (h1 b (by simp)) hab
            rcases List.mem_cons.mp hxmem with hxb | hxrest
            · exact hxb ▸ haltb
            · exact lt_of_lt_of_le haltb ((List.sorted_cons.mp h2).1 x hxrest)

theorem nodup_dedupAdj_of_sorted {l : List String} (h : l.Sorted (· ≤ ·)) :
    (dedupAdj l).Nodup :=
  (sorted_lt_dedupAdj l h).nodup

theorem sorted_le_dedupAdj {l : List String} (h : l.Sorted (· ≤ ·)) :
    (dedupAdj l).Sorted (· ≤ ·) :=
  (sorted_lt_dedupAdj l h).le_of_lt

/-! ### Helper lemmas about the fallback-union loop -/

theorem mem_addMissing_of_mem {acc : List String} {a : String} (f : String)
    (h : a ∈ acc) : a ∈ addMissing acc f := by
  unfold addMissing
  split
  · exact h
  · exact List.mem_append_left _ h

theorem mem_addMissing_self (acc : List String) (f : String) : f ∈ addMissing acc f := by
  unfold addMissing
  split
  · rename_i h
    exact List.mem_of_elem_eq_true h
  · exact List.mem_append_right _ (by simp)

theorem mem_of_mem_addMissing {acc : List String} {a f : String}
    (h : a ∈ addMissing acc f) : a ∈ acc ∨ a = f := by
  unfold addMissing at h
  split at h
  · exact Or.inl h
  · rcases List.mem_append.mp h with h1 | h1
    · exact Or.inl h1
    · exact Or.inr (by simpa using h1)

theorem nodup_addMissing {acc : List String} (f : String) (h : acc.Nodup) :
    (addMissing acc f).Nodup := by
  unfold addMissing
  split
  · exact h
  · rename_i hc
    rw [List.nodup_append]
    refine ⟨h, by simp, ?_⟩
    intro x hx hxf
    rw [List.mem_singleton] at hxf
    subst hxf
    exact absurd (List.elem_eq_true_of_mem hx) (by simpa using hc)

theorem mem_foldl_addMissing_of_mem :
    ∀ (fs acc : List String) (a : String), a ∈ acc → a ∈ List.foldl addMissing acc fs := by
  intro fs
  induction fs with
  | nil => intro acc a h; exact h
  | cons f fs ih =>
      intro acc a h
      exact ih (addMissing acc f) a (mem_addMissing_of_mem f h)

theorem mem_foldl_addMissing_self :
    ∀ (fs acc : List String) (f : String), f ∈ fs → f ∈ List.foldl addMissing acc fs := by
  intro fs
  induction fs with
  | nil => intro acc f h; cases h
  | cons g fs ih =>
      intro acc f h
      rcases List.mem_cons.mp h with h1 | h1
      · subst h1
        exact mem_foldl_addMissing_of_mem fs _ f (mem_addMissing_self acc f)
      · exact ih _ f h1

theorem mem_of_mem_foldl_addMissing :
    ∀ (fs acc : List String) (a : String),
      a ∈ List.foldl addMissing acc fs → a ∈ acc ∨ a ∈ fs := by
  intro fs
  induction fs with
  | nil => intro acc a h; exact Or.inl h
  | cons f fs ih =>
      intro acc a h
      rcases ih (addMissing acc f) a h with h1 | h1
      · rcases mem_of_mem_addMissing h1 with h2 | h2
        · exact Or.inl h2
        · exact Or.inr (by simp [h2])
      · exact Or.inr (List.mem_cons_of_mem f h1)

theorem nodup_foldl_addMissing :
    ∀ (fs acc : List String), acc.Nodup → (List.foldl addMissing acc fs).Nodup := by
  intro fs
  induction fs with
  | nil => intro acc h; exact h
  | cons f fs ih => intro acc h; exact ih _ (nodup_addMissing f h)

/-! ### Helper lemmas about the name filter and the candidate list -/

theorem isValidName_of_ascii (isAlpha : Char → Bool) (s : String)
    (h : s.data.all isAsciiChar = true) (hne : s.isEmpty = false) :
    isValidName isAlpha s = true := by
  simp only [isValidName, hne, Bool.not_false, Bool.true_and]
  rw [List.all_eq_true] at h ⊢
  intro c hc
  simp [h c hc]

theorem fallback_valid (isAlpha : Char → Bool) (f : String) (hf : f ∈ fallback_fonts) :
    isValidName isAlpha f = true := by
  fin_cases hf <;> exact isValidName_of_ascii _ _ (by decide) (by decide)

theorem valid_of_mem_candidateNames {isAlpha : Char → Bool} {handles : List (Option String)}
    {name : String} (h : name ∈ candidateNames isAlpha handles) :
    isValidName isAlpha name = true := by
  unfold candidateNames at h
  rcases List.mem_filterMap.mp h with ⟨opt, _, hopt⟩
  split at hopt
  · split at hopt
    · rename_i hv
      cases hopt
      exact hv
    · exact Option.noConfusion hopt
  · exact Option.noConfusion hopt

theorem mem_candidateNames_of_valid {isAlpha : Char → Bool} {handles : List (Option String)}
    {name : String} (hres : some name ∈ handles)
    (hv : isValidName isAlpha name = true) :
    name ∈ candidateNames isAlpha handles := by
  unfold candidateNames
  exact List.mem_filterMap.mpr ⟨some name, hres, by simp [hv]⟩

/-! ### Structure lemmas for initialize_fonts -/

theorem initialize_fonts_enumErr (isAlpha : Char → Bool) (e : String) :
    initialize_fonts isAlpha (HostOutcome.enumErr e) = fallback_fonts := rfl

theorem initialize_fonts_of_no_candidates (isAlpha : Char → Bool)
    (handles : List (Option String)) (h : candidateNames isAlpha handles = []) :
    initialize_fonts isAlpha (HostOutcome.enumOk handles) = fallback_fonts := by
  simp [initialize_fonts, h]

theorem initialize_fonts_of_candidates (isAlpha : Char → Bool)
    (handles : List (Option String)) (h : candidateNames isAlpha handles ≠ []) :
    initialize_fonts isAlpha (HostOutcome.enumOk handles) =
      sortStr (List.foldl addMissing
        (dedupAdj (sortStr (candidateNames isAlpha handles))) fallback_fonts) := by
  simp only [initialize_fonts]
  rw [if_neg]
  intro hemp
  exact h (List.isEmpty_iff.mp hemp)

theorem fallback_mem_initialize_fonts (isAlpha : Char → Bool) (outcome : HostOutcome)
    (f : String) (hf : f ∈ fallback_fonts) : f ∈ initialize_fonts isAlpha outcome := by
  cases outcome with
  | enumErr e => exact hf
  | enumOk handles =>
      by_cases h : candidateNames isAlpha handles = []
      · rw [initialize_fonts_of_no_candidates isAlpha handles h]
        exact hf
      · rw [initialize_fonts_of_candidates isAlpha handles h]
        exact mem_sortStr.mpr (mem_foldl_addMissing_self fallback_fonts _ f hf)

theorem mem_initialize_cases (isAlpha : Char → Bool) (outcome : HostOutcome)
    (x : String) (hx : x ∈ initialize_fonts isAlpha outcome) :
    (∃ handles, outcome = HostOutcome.enumOk handles ∧
      x ∈ candidateNames isAlpha handles) ∨ x ∈ fallback_fonts := by
  cases outcome with
  | enumErr e => exact Or.inr hx
  | enumOk handles =>
      by_cases h : candidateNames isAlpha handles = []
      · rw [initialize_fonts_of_no_candidates isAlpha handles h] at hx
        exact Or.inr hx
      · rw [initialize_fonts_of_candidates isAlpha handles h] at hx
        rcases mem_of_mem_foldl_addMissing fallback_fonts _ x (mem_sortStr.mp hx)
          with h1 | h1
        · left
          refine ⟨handles, rfl, ?_⟩
          exact mem_sortStr.mp ((mem_dedupAdj _ x).mp h1)
        · exact Or.inr h1

/-! ### Claims -/

/-- C1: for every possible host enumeration outcome (successful enumeration with
any handles, enumeration failure, or zero names surviving the filter), the
catalog returned by `initialize_fonts` contains every one of the seven
fallback names (Arial, Times New Roman, Helvetica, Courier New, Georgia,
Verdana, Inter). -/
theorem c1_fallback_always_present (isAlpha : Char → Bool) (outcome : HostOutcome)
    (f : String) (hf : f ∈ fallback_fonts) : f ∈ initialize_fonts isAlpha outcome :=
  fallback_mem_initialize_fonts isAlpha outcome f hf

theorem c1_witness :
    ("Inter" : String) ∈ fallback_fonts ∧
    ("Inter" : String) ∈ initialize_fonts (fun _ => false) (HostOutcome.enumErr "no fonts") :=
  ⟨by decide,
   c1_fallback_always_present (fun _ => false) (HostOutcome.enumErr "no fonts") "Inter"
     (by decide)⟩

/-- C2 counterexample: when host enumeration fails, the returned catalog is the
fallback list in declaration order, which is not sorted ascending ("Times New
Roman" precedes "Helvetica"), refuting the claim that the catalog is sorted for
every host enumeration outcome. -/
theorem c2_counterexample :
    ¬ (initialize_fonts (fun _ => true)
        (HostOutcome.enumErr "enumeration failed")).Sorted (· ≤ ·) := by
  intro hsorted
  have h : List.Sorted (· ≤ ·) (["Arial", "Times New Roman", "Helvetica",
      "Courier New", "Georgia", "Verdana", "Inter"] : List String) := hsorted
  have h2 := (List.sorted_cons.mp h).2
  have h3 : ("Times New Roman" : String) ≤ "Helvetica" :=
    (List.sorted_cons.mp h2).1 "Helvetica" (by simp)
  have h4 : strLe "Times New Roman" "Helvetica" = true := (strLe_iff _ _).mpr h3
  exact absurd h4 (by decide)

/-- C2 (amended): for every host enumeration outcome the returned catalog has no
duplicates; in addition, whenever enumeration succeeds and at least one name
survives the filter, the catalog is sorted in ascending lexicographic order.
(In the enumeration-failure and zero-valid-names cases the catalog is the
fallback list in declaration order, which is duplicate-free but not sorted.) -/
theorem c2_sorted_nodup_amended (isAlpha : Char → Bool) (outcome : HostOutcome) :
    (initialize_fonts isAlpha outcome).Nodup ∧
    (∀ handles, outcome = HostOutcome.enumOk handles →
      candidateNames isAlpha handles ≠ [] →
      (initialize_fonts isAlpha outcome).Sorted (· ≤ ·)) := by
  constructor
  · cases outcome with
    | enumErr e =>
        rw [initialize_fonts_enumErr]
        decide
    | enumOk handles =>
        by_cases h : candidateNames isAlpha handles = []
        · rw [initialize_fonts_of_no_candidates _ _ h]
          decide
        · rw [initialize_fonts_of_candidates _ _ h]
          exact (sortStr_perm _).nodup_iff.mpr
            (nodup_foldl_addMissing _ _ (nodup_dedupAdj_of_sorted (sortStr_sorted _)))
  · intro handles heq hne
    subst heq
    rw [initialize_fonts_of_candidates _ _ hne]
    exact sortStr_sorted _

theorem c2_witness :
    (initialize_fonts (fun _ => false) (HostOutcome.enumOk [some "Zapfino"])).Nodup ∧
    (initialize_fonts (fun _ => false)
      (HostOutcome.enumOk [some "Zapfino"])).Sorted (· ≤ ·) :=
  ⟨(c2_sorted_nodup_amended (fun _ => false) (HostOutcome.enumOk [some "Zapfino"])).1,
   (c2_sorted_nodup_amended (fun _ => false) (HostOutcome.enumOk [some "Zapfino"])).2
     [some "Zapfino"] rfl (by decide)⟩

/-- C3 counterexample: when enumeration succeeds with zero surviving names
(here: zero handles), the returned catalog is not `sortStr fallback_fonts`,
refuting the claim that it equals the fallback set sorted ascending. -/
theorem c3_counterexample :
    initialize_fonts (fun _ => true) (HostOutcome.enumOk []) ≠ sortStr fallback_fonts := by
  decide

/-- C3 (amended): if host enumeration succeeds but zero names survive the
validity filter, `initialize_fonts` returns exactly the fallback list in its
fixed declaration order (Arial, Times New Roman, Helvetica, Courier New,
Georgia, Verdana, Inter), not sorted. -/
theorem c3_zero_valid_returns_fallback (isAlpha : Char → Bool)
    (handles : List (Option String)) (h : candidateNames isAlpha handles = []) :
    initialize_fonts isAlpha (HostOutcome.enumOk handles) = fallback_fonts := by
  simp [initialize_fonts, h]

theorem c3_witness :
    candidateNames (fun _ => true) [none, some ""] = [] ∧
    initialize_fonts (fun _ => true) (HostOutcome.enumOk [none, some ""]) = fallback_fonts :=
  ⟨by decide, c3_zero_valid_returns_fallback (fun _ => true) [none, some ""] (by decide)⟩

/-- C4 (code bug evidence): starting from the empty cache installed at setup,
a `get_system_fonts` call runs the loader, leaves the cache empty, and a
subsequent call on the resulting cache runs the loader again — the cache
remains a permanently empty state that is reloaded on every query,
contradicting the claim that an empty catalog triggers exactly one
re-initialization. -/
theorem c4_cache_stays_empty_and_reloads :
    (get_system_fonts none (fun _ => false) (HostOutcome.enumErr "font service down")
        initialize_empty_state).loaderCalls = 1 ∧
    (get_system_fonts none (fun _ => false) (HostOutcome.enumErr "font service down")
        initialize_empty_state).state = initialize_empty_state ∧
    (get_system_fonts none (fun _ => false) (HostOutcome.enumErr "font service down")
      ((get_system_fonts none (fun _ => false) (HostOutcome.enumErr "font service down")
        initialize_empty_state).state)).loaderCalls = 1 :=
  ⟨rfl, rfl, rfl⟩

/-- C5: `get_system_fonts` returns an error value if and only if the lock
cannot be acquired; the error carries the message "Failed to access font
cache: " followed by the lock error, and in every other case the call returns
a catalog. -/
theorem c5_err_iff_lock_failure (lockResult : Option String) (isAlpha : Char → Bool)
    (outcome : HostOutcome) (state : List String) :
    ((∃ msg, (get_system_fonts lockResult isAlpha outcome state).result = Except.error msg)
      ↔ lockResult ≠ none) ∧
    (∀ e, lockResult = some e →
      (get_system_fonts lockResult isAlpha outcome state).result =
        Except.error ("Failed to access font cache: " ++ e)) ∧
    (lockResult = none →
      ∃ catalog, (get_system_fonts lockResult isAlpha outcome state).result =
        Except.ok catalog) := by
  cases lockResult with
  | none =>
      refine ⟨⟨?_, ?_⟩, ?_, ?_⟩
      · rintro ⟨msg, hmsg⟩
        by_cases hemp : state.isEmpty = true <;> simp [get_system_fonts, hemp] at hmsg
      · intro hne
        exact absurd rfl hne
      · intro e he
        exact Option.noConfusion he
      · intro _
        by_cases hemp : state.isEmpty = true
        · exact ⟨initialize_fonts isAlpha outcome, by simp [get_system_fonts, hemp]⟩
        · exact ⟨state, by simp [get_system_fonts, hemp]⟩
  | some e =>
      refine ⟨⟨?_, ?_⟩, ?_, ?_⟩
      · intro _
        simp
      · intro _
        exact ⟨"Failed to access font cache: " ++ e, rfl⟩
      · intro e2 he2
        cases he2
        rfl
      · intro h
        exact Option.noConfusion h

theorem c5_witness :
    (get_system_fonts (some "poisoned lock") (fun _ => false) (HostOutcome.enumErr "x")
      ["Arial"]).result = Except.error ("Failed to access font cache: " ++ "poisoned lock") :=
  (c5_err_iff_lock_failure (some "poisoned lock") (fun _ => false) (HostOutcome.enumErr "x")
    ["Arial"]).2.1 "poisoned lock" rfl

/-- C6: when host enumeration resolves exactly the family names
["Verdana", "Arial", "Zapfino", "Verdana"], `initialize_fonts` returns exactly
["Arial", "Courier New", "Georgia", "Helvetica", "Inter", "Times New Roman",
"Verdana", "Zapfino"], for any host alphabetic classification (all these names
are pure ASCII). -/
theorem c6_worked_example (isAlpha : Char → Bool) :
    initialize_fonts isAlpha
      (HostOutcome.enumOk [some "Verdana", some "Arial", some "Zapfino", some "Verdana"]) =
    ["Arial", "Courier New", "Georgia", "Helvetica", "Inter", "Times New Roman",
     "Verdana", "Zapfino"] := by
  have hv1 := isValidName_of_ascii isAlpha "Verdana" (by decide) (by decide)
  have hv2 := isValidName_of_ascii isAlpha "Arial" (by decide) (by decide)
  have hv3 := isValidName_of_ascii isAlpha "Zapfino" (by decide) (by decide)
  have h : candidateNames isAlpha [some "Verdana", some "Arial", some "Zapfino", some "Verdana"]
      = ["Verdana", "Arial", "Zapfino", "Verdana"] := by
    unfold candidateNames
    simp [hv1, hv2, hv3]
  rw [initialize_fonts_of_candidates isAlpha _ (by rw [h]; simp), h]
  decide

/-- C7: for every resolved handle, its family name is in the candidate list if
and only if the name is non-empty and every character is ASCII or classified
alphabetic; consequently a name failing the filter never appears in the
returned catalog. -/
theorem c7_name_filter (isAlpha : Char → Bool) (handles : List (Option String))
    (name : String) (hres : some name ∈ handles) :
    (name ∈ candidateNames isAlpha handles ↔ isValidName isAlpha name = true) ∧
    (isValidName isAlpha name = false →
      name ∉ initialize_fonts isAlpha (HostOutcome.enumOk handles)) := by
  refine ⟨⟨fun hmem => valid_of_mem_candidateNames hmem,
    fun hv => mem_candidateNames_of_valid hres hv⟩, ?_⟩
  intro hv hmem
  rcases mem_initialize_cases isAlpha _ name hmem with ⟨hs, heq, hcand⟩ | hfall
  · cases heq
    exact absurd (valid_of_mem_candidateNames hcand) (by simp [hv])
  · exact absurd (fallback_valid isAlpha name hfall) (by simp [hv])

theorem c7_witness :
    ("★Font★" : String) ∉ initialize_fonts Char.isAlpha
      (HostOutcome.enumOk [some "★Font★"]) :=
  (c7_name_filter Char.isAlpha [some "★Font★"] "★Font★" (by decide)).2 (by decide)

/-- C8: `initialize_fonts` is total — for every host enumeration outcome it
returns a catalog (its type is a plain list, not a result type), and the
returned catalog is non-empty. -/
theorem c8_total_and_nonempty (isAlpha : Char → Bool) (outcome : HostOutcome) :
    initialize_fonts isAlpha outcome ≠ [] :=
  List.ne_nil_of_mem
    (fallback_mem_initialize_fonts isAlpha outcome "Arial" (by decide))

/-- C9 (code bug evidence): two sequential `get_system_fonts` calls from the
startup state (empty cache, lock acquirable, fixed host source) return equal
catalogs, but the expensive load runs in both calls (once each), not only
once, because the first call never stores its result. -/
theorem c9_two_calls_equal_but_double_load :
    (get_system_fonts none (fun _ => true) (HostOutcome.enumOk [some "Zapfino"])
        initialize_empty_state).result =
    (get_system_fonts none (fun _ => true) (HostOutcome.enumOk [some "Zapfino"])
      ((get_system_fonts none (fun _ => true) (HostOutcome.enumOk [some "Zapfino"])
        initialize_empty_state).state)).result ∧
    (get_system_fonts none (fun _ => true) (HostOutcome.enumOk [some "Zapfino"])
        initialize_empty_state).loaderCalls = 1 ∧
    (get_system_fonts none (fun _ => true) (HostOutcome.enumOk [some "Zapfino"])
      ((get_system_fonts none (fun _ => true) (HostOutcome.enumOk [some "Zapfino"])
        initialize_empty_state).state)).loaderCalls = 1 :=
  ⟨rfl, rfl, rfl⟩

/-- C10: `get_system_fonts` never writes to the cache — the state after the
call equals the state before it in every branch; with the lock acquired it
returns the cached list when non-empty and a freshly computed
`initialize_fonts` result (not stored back) when empty. -/
theorem c10_no_writeback (lockResult : Option String) (isAlpha : Char → Bool)
    (outcome : HostOutcome) (state : List String) :
    (get_system_fonts lockResult isAlpha outcome state).state = state ∧
    (lockResult = none →
      (get_system_fonts lockResult isAlpha outcome state).result =
        Except.ok (if state.isEmpty then initialize_fonts isAlpha outcome else state)) := by
  cases lockResult with
  | none =>
      refine ⟨?_, ?_⟩
      · by_cases hemp : state.isEmpty = true <;> simp [get_system_fonts, hemp]
      · intro _
        by_cases hemp : state.isEmpty = true <;> simp [get_system_fonts, hemp]
  | some e =>
      exact ⟨rfl, fun h => Option.noConfusion h⟩

theorem c10_witness :
    (get_system_fonts none (fun _ => false) (HostOutcome.enumErr "x") ["Arial"]).state
      = ["Arial"] ∧
    (get_system_fonts none (fun _ => false) (HostOutcome.enumErr "x") ["Arial"]).result =
      Except.ok (if (["Arial"] : List String).isEmpty then
        initialize_fonts (fun _ => false) (HostOutcome.enumErr "x") else ["Arial"]) :=
  ⟨(c10_no_writeback none (fun _ => false) (HostOutcome.enumErr "x") ["Arial"]).1,
   (c10_no_writeback none (fun _ => false) (HostOutcome.enumErr "x") ["Arial"]).2 rfl⟩

end Squish
